import Mathlib

/-
Verification of the call-center conversation analysis pipeline.

The development shallowly embeds the acoustic / emotion-analysis core of the
repository: audio signals are lists of rationals (exact models of the float
samples), emotion labels are strings, and every repository function used by a
claim is translated into a computable Lean definition that mirrors the Python
source statement by statement.  Definitions come first, theorems follow.
-/

namespace CCI

/-! ## Signal utilities (audio_processing.py) -/

/-- Model of numpy max(abs(audio)) with 0 for the empty signal: the largest
absolute sample value of a signal. -/
def maxAbs (audio : List ℚ) : ℚ :=
  (audio.map (fun x => |x|)).foldl max 0

/-- Embedding of normalize_audio (audio_processing.py lines 180-192): np.max
over the empty array raises ValueError, modelled as none; otherwise the
signal is divided by its maximum absolute sample when that is positive, and
returned unchanged when it is zero. -/
def normalize_audio (audio : List ℚ) : Option (List ℚ) :=
  if audio.isEmpty then none
  else if 0 < maxAbs audio then some (audio.map (fun x => x / maxAbs audio))
  else some audio

/-! ## Band-pass cutoff clamping (bandpass_filter, audio_processing.py 128-178)

The chain of defensive clamps that bandpass_filter applies to its cutoff
frequencies before calling scipy butter is embedded stage by stage. -/

/-- nyquist = 0.5 * sample_rate. -/
def bpNyquist (sr : ℚ) : ℚ := 0.5 * sr

/-- lowcut = max(20, min(lowcut, max_allowed_freq * 0.8)) where
max_allowed_freq = nyquist * 0.25. -/
def bpLowcut (lc sr : ℚ) : ℚ :=
  max 20 (min lc (bpNyquist sr * 0.25 * 0.8))

/-- highcut = max(lowcut + 30, min(highcut, max_allowed_freq)). -/
def bpHighcut (lc hc sr : ℚ) : ℚ :=
  max (bpLowcut lc sr + 30) (min hc (bpNyquist sr * 0.25))

/-- low = max(0.001, min(lowcut / nyquist, 0.249)). -/
def bpLow1 (lc sr : ℚ) : ℚ :=
  max 0.001 (min (bpLowcut lc sr / bpNyquist sr) 0.249)

/-- high = max(low + 0.001, min(highcut / nyquist, 0.249)). -/
def bpHigh1 (lc hc sr : ℚ) : ℚ :=
  max (bpLow1 lc sr + 0.001) (min (bpHighcut lc hc sr / bpNyquist sr) 0.249)

/-- The final normalized cutoff pair passed to butter: after the clamps above,
a band narrower than 0.01 is re-centered and widened to exactly 0.01. -/
def bandpassCutoffs (lc hc sr : ℚ) : ℚ × ℚ :=
  if bpHigh1 lc hc sr - bpLow1 lc sr < 0.01 then
    ((bpLow1 lc sr + bpHigh1 lc hc sr) / 2 - 0.005,
     (bpLow1 lc sr + bpHigh1 lc hc sr) / 2 + 0.005)
  else (bpLow1 lc sr, bpHigh1 lc hc sr)

/-- Embedding of bandpass_filter.  The scipy butter / lfilter kernel is an
external numeric library, modelled by the uninterpreted parameter filt; scipy
raises (ValueError) when a digital critical frequency is outside (0, 1), and
the except branch of the source returns the unfiltered data, which is the
behaviour embedded here.  A successfully filtered signal is peak-normalized
exactly as in the source. -/
def bandpass_filter (filt : ℚ → ℚ → List ℚ → List ℚ)
    (data : List ℚ) (lc hc sr : ℚ) : List ℚ :=
  if 0 < (bandpassCutoffs lc hc sr).1 ∧
     (bandpassCutoffs lc hc sr).1 < (bandpassCutoffs lc hc sr).2 ∧
     (bandpassCutoffs lc hc sr).2 < 1 then
    if 0 < maxAbs (filt (bandpassCutoffs lc hc sr).1 (bandpassCutoffs lc hc sr).2 data)
    then (filt (bandpassCutoffs lc hc sr).1 (bandpassCutoffs lc hc sr).2 data).map
      (fun x => x / maxAbs (filt (bandpassCutoffs lc hc sr).1
        (bandpassCutoffs lc hc sr).2 data))
    else filt (bandpassCutoffs lc hc sr).1 (bandpassCutoffs lc hc sr).2 data
  else data

/-! ## Emotion smoothing (smooth_emotions, emotion_analysis.py 321-352) -/

/-- The list of distinct labels of w in order of first occurrence: this is the
key order of the Python dict emotion_counts built by insertion. -/
def firstOccs (l : List String) : List String :=
  l.foldl (fun acc e => if e ∈ acc then acc else acc ++ [e]) []

/-- Embedding of the most-frequent-label selection
max(emotion_counts.items(), key=lambda x: x[1])[0]: scan the labels in first
occurrence order keeping the current best, replacing it only on a strictly
larger count, so a tie resolves to the earlier label. -/
def mostCommon (w : List String) : String :=
  (firstOccs w).foldl (fun best e => if w.count best < w.count e then e else best)
    (w.headD "")

/-- Embedding of smooth_emotions: a sequence no longer than the window is
returned unchanged; otherwise each position is replaced by the most frequent
label in the centered window clipped at the boundaries.  Nat subtraction in
start mirrors the max(0, i - window_size // 2) of the source. -/
def smooth_emotions (emotions : List String) (window_size : ℕ) : List String :=
  if emotions.length ≤ window_size then emotions
  else
    (List.range emotions.length).map (fun i =>
      let start := i - window_size / 2
      let stop := min emotions.length (i + window_size / 2 + 1)
      mostCommon ((emotions.drop start).take (stop - start)))

/-- Modelled from the claim wording for C2: the windowed-majority pass applied
at every position of every sequence, with no short-sequence guard. -/
def smoothSpecAll (emotions : List String) (window_size : ℕ) : List String :=
  (List.range emotions.length).map (fun i =>
    let start := i - window_size / 2
    let stop := min emotions.length (i + window_size / 2 + 1)
    mostCommon ((emotions.drop start).take (stop - start)))

/-! ## Streak counting (count_emotion_sequences, utils.py 5-32) -/

/-- The loop body of count_emotion_sequences on the state
(count, current_streak): a target label extends the streak; any other label
closes it, counting it when it reached min_length. -/
def streakStep (target_emotions : List String) (min_length : ℕ)
    (p : ℕ × ℕ) (e : String) : ℕ × ℕ :=
  if e ∈ target_emotions then (p.1, p.2 + 1)
  else if min_length ≤ p.2 then (p.1 + 1, 0) else (p.1, 0)

/-- Embedding of count_emotion_sequences: one sequential scan with a running
streak length; leaving a streak of at least min_length, or ending the scan in
one, contributes one to the count. -/
def count_emotion_sequences (emotions target_emotions : List String)
    (min_length : ℕ) : ℕ :=
  if min_length ≤ (emotions.foldl (streakStep target_emotions min_length) (0, 0)).2
  then (emotions.foldl (streakStep target_emotions min_length) (0, 0)).1 + 1
  else (emotions.foldl (streakStep target_emotions min_length) (0, 0)).1

/-- Modelled from the claim wording for C7: the scan collecting the length of
every maximal run of consecutive target labels. -/
def runStep (target_emotions : List String) (q : List ℕ × ℕ)
    (e : String) : List ℕ × ℕ :=
  if e ∈ target_emotions then (q.1, q.2 + 1)
  else if 0 < q.2 then (q.1 ++ [q.2], 0) else (q.1, 0)

/-- Modelled from the claim wording for C7: the lengths of the maximal runs of
consecutive labels that lie in the target set, in order of appearance. -/
def targetRuns (emotions target_emotions : List String) : List ℕ :=
  if 0 < (emotions.foldl (runStep target_emotions) ([], 0)).2
  then (emotions.foldl (runStep target_emotions) ([], 0)).1 ++
    [(emotions.foldl (runStep target_emotions) ([], 0)).2]
  else (emotions.foldl (runStep target_emotions) ([], 0)).1

/-- Modelled from the claim wording for C7: the number of maximal target runs
of length at least m. -/
def streakCountSpec (emotions target_emotions : List String) (m : ℕ) : ℕ :=
  ((targetRuns emotions target_emotions).filter (fun r => m ≤ r)).length

/-! ## Call quality score (calculate_call_quality, utils.py 52-125)

The DataFrame with columns for the operator and customer emotions is embedded
as two lists of labels; len(df) is the common column length, taken from the
operator column. -/

/-- Embedding of calculate_call_quality.  Every penalty, bonus and the final
clamp follow the source in order; the unused emotion_match_rate computation of
the source (a dead local) is omitted. -/
def calculate_call_quality (op cust : List String) : ℚ :=
  let n := op.length
  let operator_negative := count_emotion_sequences op ["негативные"] 2
  let customer_negative := count_emotion_sequences cust ["негативные"] 2
  let operator_positive := count_emotion_sequences op ["радость"] 2
  let customer_positive := count_emotion_sequences cust ["радость"] 2
  let positive_match := ((List.range n).filter (fun i =>
    op.getD i "" = cust.getD i "" ∧
    op.getD i "" ∈ (["нейтрально", "радость"] : List String))).length
  let positive_match_rate : ℚ := if 0 < n then (positive_match : ℚ) / n else 0
  let negative_mirror := ((List.range n).filter (fun i =>
    1 ≤ i ∧ cust.getD (i - 1) "" = "негативные" ∧
    op.getD i "" = "негативные")).length
  let recovery : ℚ :=
    if 10 < n then
      let startSeg := cust.take (n / 3)
      let endSeg := cust.drop (n - (n + 2) / 3)
      let start_customer_negative : ℚ :=
        ((startSeg.filter (fun e => e = "негативные")).length : ℚ) /
          (startSeg.length : ℚ)
      let end_customer_positive : ℚ :=
        ((endSeg.filter (fun e =>
          e ∈ (["радость", "нейтрально"] : List String))).length : ℚ) /
          (endSeg.length : ℚ)
      if 0.3 < start_customer_negative ∧ 0.7 < end_customer_positive then 2 else 0
    else 0
  let score : ℚ := 5
    - min 2 ((operator_negative : ℚ) * 0.3)
    - min 1 ((customer_negative : ℚ) * 0.1)
    + min 1 ((operator_positive : ℚ) * 0.2)
    + min 2 ((customer_positive : ℚ) * 0.4)
    + min 2 (positive_match_rate * 3)
    - min 1 ((negative_mirror : ℚ) * 0.3)
    + recovery
  max 0 (min 10 score)

/-! ## Key moments (extract_key_moments, utils.py 127-166) -/

/-- Test for the negative emotion label. -/
def isNeg (s : String) : Bool := s = "негативные"

/-- Test for membership in the calm labels [нейтрально, радость] against which
extract_key_moments checks operator and customer reactions. -/
def isCalm (s : String) : Bool := s ∈ (["нейтрально", "радость"] : List String)

/-- Condition of the customer-turns-negative loop of extract_key_moments. -/
def turnsNegativeB (cust : List String) (i : ℕ) : Bool :=
  isNeg (cust.getD i "") && !isNeg (cust.getD (i - 1) "")

/-- Condition of the operator-fails-to-adapt loop of extract_key_moments. -/
def badResponseB (op cust : List String) (i : ℕ) : Bool :=
  isNeg (cust.getD (i - 1) "") && !isCalm (op.getD i "")

/-- Condition of the de-escalation loop of extract_key_moments: customer was
negative at i-2, operator calm at i-1, customer calm again at i. -/
def goodResponseB (op cust : List String) (i : ℕ) : Bool :=
  isNeg (cust.getD (i - 2) "") && isCalm (op.getD (i - 1) "") &&
    isCalm (cust.getD i "")

/-- Embedding of extract_key_moments: the three timestamp lists built by the
source loops, as a triple (customer-turns-negative, operator-fails-to-adapt,
operator-successfully-de-escalates). -/
def extract_key_moments (time : List ℚ) (op cust : List String) :
    List ℚ × List ℚ × List ℚ :=
  ((List.range' 1 (op.length - 1)).foldl
    (fun acc i => if turnsNegativeB cust i then acc ++ [time.getD i 0] else acc) [],
   (List.range' 1 (op.length - 1)).foldl
    (fun acc i => if badResponseB op cust i then acc ++ [time.getD i 0] else acc) [],
   (List.range' 2 (op.length - 2)).foldl
    (fun acc i => if goodResponseB op cust i then acc ++ [time.getD i 0] else acc) [])

/-- Modelled from the claim wording for C8: the timestamps of exactly the
indices i of the timeline with 2 ≤ i at which the fixed 2-segment-lag
de-escalation pattern matches. -/
def deescalationSpec (time : List ℚ) (op cust : List String) : List ℚ :=
  ((List.range op.length).filter
    (fun i => decide (2 ≤ i) && goodResponseB op cust i)).map
    (fun i => time.getD i 0)

/-! ## Mono speaker separation
(separate_speakers_from_mono, audio_processing.py 41-126) -/

/-- frame_length = int(sample_rate * 0.025). -/
def frameLen (sr : ℕ) : ℕ := sr * 25 / 1000

/-- hop_length = int(sample_rate * 0.010). -/
def hopLen (sr : ℕ) : ℕ := sr * 10 / 1000

/-- transition_length = int(sample_rate * 0.005). -/
def transLen (sr : ℕ) : ℕ := sr * 5 / 1000

/-- Number of frames produced by librosa.util.frame on n samples (librosa
raises unless n is at least the frame length and the hop is positive). -/
def numFrames (n fl hop : ℕ) : ℕ := 1 + (n - fl) / hop

/-- Sum of squares of the 25 ms analysis frame starting at sample i*hop. -/
def frameEnergy (audio : List ℚ) (fl hop i : ℕ) : ℚ :=
  (((audio.drop (i * hop)).take fl).map (fun x => x ^ 2)).sum

/-- energy = np.sum(frames ** 2, axis=0): the per-frame energy sequence. -/
def frameEnergies (audio : List ℚ) (sr : ℕ) : List ℚ :=
  (List.range (numFrames audio.length (frameLen sr) (hopLen sr))).map
    (fun i => frameEnergy audio (frameLen sr) (hopLen sr) i)

/-- energy = (energy - np.min(energy)) / (np.max(energy) - np.min(energy)).
Division by zero (all energies equal, a NaN in numpy) is the junk value 0 of
rational division; no theorem depends on the normalized values. -/
def minmaxNorm (l : List ℚ) : List ℚ :=
  l.map (fun e => (e - l.foldl min (l.headD 0)) /
    (l.foldl max (l.headD 0) - l.foldl min (l.headD 0)))

/-- threshold = np.mean(energy) * 1.2 over the normalized energies. -/
def energyThreshold (l : List ℚ) : ℚ := l.sum / l.length * 1.2

/-- Numpy slice assignment mask[s:e] = v, on a mask modelled as a total map
from sample positions to weights. -/
def writeSlice (m : ℕ → ℚ) (s e : ℕ) (v : ℕ → ℚ) : ℕ → ℚ :=
  fun p => if s ≤ p ∧ p < e then v p else m p

/-- The frame-wise mask-assignment loop of separate_speakers_from_mono: frame
i covers samples [i*hop, min(i*hop + fl, n)) and receives the constant weight
hi when its normalized energy exceeds the threshold, lo otherwise; later
frames overwrite overlapping samples exactly as the source loop does. -/
def frameMaskWrite (en : List ℚ) (thr : ℚ) (hop fl n : ℕ) (hi lo : ℚ)
    (m0 : ℕ → ℚ) (L : List ℕ) : ℕ → ℚ :=
  L.foldl (fun m i =>
    writeSlice m (i * hop) (min (i * hop + fl) n)
      (fun _ => if thr < en.getD i 0 then hi else lo)) m0

/-- numpy linspace(a, b, num) sampled at index k: num evenly spaced values
from a to b inclusive; a single-element ramp is just a. -/
def linspaceVal (a b : ℚ) (num k : ℕ) : ℚ :=
  if num ≤ 1 then a else a + (b - a) * k / ((num : ℚ) - 1)

/-- The cross-fade loop: for each frame index i from the list, the samples
[i*hop, min(i*hop + trans, n)) are replaced by a linear ramp from the current
mask value at i*hop - 1 to the current mask value at i*hop, reading both
endpoints before the slice is overwritten, as numpy evaluates the right-hand
side first. -/
def crossfadeWrite (hop trans n : ℕ) (m0 : ℕ → ℚ) (L : List ℕ) : ℕ → ℚ :=
  L.foldl (fun m i =>
    writeSlice m (i * hop) (min (i * hop + trans) n)
      (fun p => linspaceVal (m (i * hop - 1)) (m (i * hop))
        (min (i * hop + trans) n - i * hop) (p - i * hop))) m0

/-- The operator weight mask of separate_speakers_from_mono after the
frame-wise 0.8/0.2 assignment and the cross-fade, before it multiplies the
signal and before the final normalization. -/
def operatorMask (audio : List ℚ) (sr : ℕ) : ℕ → ℚ :=
  crossfadeWrite (hopLen sr) (transLen sr) audio.length
    (frameMaskWrite (minmaxNorm (frameEnergies audio sr))
      (energyThreshold (minmaxNorm (frameEnergies audio sr)))
      (hopLen sr) (frameLen sr) audio.length 0.8 0.2 (fun _ => 0)
      (List.range (minmaxNorm (frameEnergies audio sr)).length))
    (List.range' 1 ((minmaxNorm (frameEnergies audio sr)).length - 1))

/-- The customer weight mask: the complementary 0.2/0.8 assignment. -/
def customerMask (audio : List ℚ) (sr : ℕ) : ℕ → ℚ :=
  crossfadeWrite (hopLen sr) (transLen sr) audio.length
    (frameMaskWrite (minmaxNorm (frameEnergies audio sr))
      (energyThreshold (minmaxNorm (frameEnergies audio sr)))
      (hopLen sr) (frameLen sr) audio.length 0.2 0.8 (fun _ => 0)
      (List.range (minmaxNorm (frameEnergies audio sr)).length))
    (List.range' 1 ((minmaxNorm (frameEnergies audio sr)).length - 1))

/-- Embedding of separate_speakers_from_mono on a mono signal.  The raising
library calls are modelled where they occur: normalize_audio raises (none) on
the empty signal, before the local variable audio is rebound, and
librosa.util.frame raises when the signal is shorter than one frame or the
hop length is zero, after audio has been rebound to the normalized signal.
The except branch of the source returns the current value of that local
variable for both channels: the original input when normalization itself
raised, the normalized signal for any later failure. -/
def separate_speakers_from_mono (audio : List ℚ) (sr : ℕ) :
    List ℚ × List ℚ × ℕ :=
  match normalize_audio audio with
  | none => (audio, audio, sr)
  | some a =>
    if a.length < frameLen sr ∨ hopLen sr = 0 then (a, a, sr)
    else
      match normalize_audio ((List.range a.length).map
          (fun p => a.getD p 0 * operatorMask a sr p)),
        normalize_audio ((List.range a.length).map
          (fun p => a.getD p 0 * customerMask a sr p)) with
      | some operator_audio, some customer_audio =>
        (operator_audio, customer_audio, sr)
      | _, _ => (a, a, sr)

/-! ## Emotion classifier (map_features_to_emotions, emotion_analysis.py
209-319) -/

/-- The acoustic descriptors of one 1-second segment, as produced by
extract_features. -/
structure FeatureVec where
  energy : ℚ
  zero_crossing_rate : ℚ
  spectral_centroid : ℚ
  spectral_rolloff : ℚ
  spectral_bandwidth : ℚ
  spectral_flatness : ℚ
  mfcc_mean : List ℚ
  mfcc_std : List ℚ

/-- np.mean of a list. -/
def listMean (l : List ℚ) : ℚ := l.sum / l.length

/-- np.var of a list: the mean squared deviation from the mean. -/
def listVar (l : List ℚ) : ℚ := listMean (l.map (fun x => (x - listMean l) ^ 2))

/-- np.std of a list.  The floating-point square root is modelled by the
rational square root Rat.sqrt; it is itself an approximation, and no theorem
below depends on the numeric value of a standard deviation. -/
def listStd (l : List ℚ) : ℚ := Rat.sqrt (listVar l)

/-- pitch_stability = np.mean(np.abs(np.diff(mfcc_mean))). -/
def diffAbsMean (l : List ℚ) : ℚ :=
  listMean ((List.zipWith (fun x y => y - x) l (l.drop 1)).map (fun x => |x|))

/-- The corpus-level statistics computed once over the whole feature list. -/
structure ClassifierStats where
  mean_energy : ℚ
  std_energy : ℚ
  mean_zcr : ℚ
  std_zcr : ℚ
  mean_centroid : ℚ
  std_centroid : ℚ

/-- Whole-call mean and standard deviation of energy, zero-crossing rate and
spectral centroid. -/
def classifierStats (features : List FeatureVec) : ClassifierStats :=
  { mean_energy := listMean (features.map (fun f => f.energy))
    std_energy := listStd (features.map (fun f => f.energy))
    mean_zcr := listMean (features.map (fun f => f.zero_crossing_rate))
    std_zcr := listStd (features.map (fun f => f.zero_crossing_rate))
    mean_centroid := listMean (features.map (fun f => f.spectral_centroid))
    std_centroid := listStd (features.map (fun f => f.spectral_centroid)) }

/-- norm_energy = (energy - mean_energy) / (std_energy + 1e-6). -/
def normEnergy (st : ClassifierStats) (f : FeatureVec) : ℚ :=
  (f.energy - st.mean_energy) / (st.std_energy + 1e-6)

/-- norm_zcr = (zcr - mean_zcr) / (std_zcr + 1e-6). -/
def normZcr (st : ClassifierStats) (f : FeatureVec) : ℚ :=
  (f.zero_crossing_rate - st.mean_zcr) / (st.std_zcr + 1e-6)

/-- norm_centroid = (centroid - mean_centroid) / (std_centroid + 1e-6). -/
def normCentroid (st : ClassifierStats) (f : FeatureVec) : ℚ :=
  (f.spectral_centroid - st.mean_centroid) / (st.std_centroid + 1e-6)

/-- The raw weighted threshold sum for the negative label. -/
def negativeScoreRaw (st : ClassifierStats) (f : FeatureVec) : ℚ :=
  (if 1 < normEnergy st f then 1.5 else 0) +
  (if 0.8 < normZcr st f then 1.5 else 0) +
  (if 4000 < f.spectral_bandwidth then 1 else 0) +
  (if 0.9 < listVar f.mfcc_mean then 1 else 0) +
  (if 0.7 < diffAbsMean f.mfcc_mean then 1 else 0) +
  (if 0.7 < f.spectral_flatness then 0.8 else 0) +
  (if 6000 < f.spectral_rolloff then 0.8 else 0)

/-- The raw weighted threshold sum for the joy label. -/
def joyScoreRaw (st : ClassifierStats) (f : FeatureVec) : ℚ :=
  (if 0.2 < normEnergy st f ∧ normEnergy st f < 0.8 then 1.2 else 0) +
  (if 0.3 < normCentroid st f then 1.2 else 0) +
  (if 4000 < f.spectral_rolloff then 1 else 0) +
  (if diffAbsMean f.mfcc_mean < 0.3 then 1 else 0) +
  (if f.spectral_flatness < 0.3 then 1 else 0)

/-- The raw weighted threshold sum for the neutral label. -/
def neutralScoreRaw (st : ClassifierStats) (f : FeatureVec) : ℚ :=
  (if |normEnergy st f| < 0.3 then 1.2 else 0) +
  (if |normZcr st f| < 0.3 then 1.2 else 0) +
  (if |normCentroid st f| < 0.3 then 1.2 else 0) +
  (if diffAbsMean f.mfcc_mean < 0.2 then 1 else 0) +
  (if 0.4 < f.spectral_flatness then 1 else 0)

/-- The final score triple (негативные, радость, нейтрально) for one segment:
the label chosen for the immediately preceding segment (when there is one)
receives a 0.3 bonus, and the negative entry is forced to 0 whenever the raw
negative score, before the bonus, is below 5 — exactly the dict updates of
the source. -/
def finalScores (st : ClassifierStats) (prev : Option String) (f : FeatureVec) :
    ℚ × ℚ × ℚ :=
  (if negativeScoreRaw st f < 5 then 0
   else if prev = some "негативные" then negativeScoreRaw st f + 0.3
   else negativeScoreRaw st f,
   if prev = some "радость" then joyScoreRaw st f + 0.3 else joyScoreRaw st f,
   if prev = some "нейтрально" then neutralScoreRaw st f + 0.3
   else neutralScoreRaw st f)

/-- Embedding of max(scores.items(), key=lambda x: x[1])[0] over the dict
with insertion order негативные, радость, нейтрально: the running best is
replaced only on a strictly larger score, unrolled over the three items. -/
def chooseLabel (sNeg sJoy sNeu : ℚ) : String :=
  if (if sNeg < sJoy then sJoy else sNeg) < sNeu then "нейтрально"
  else if sNeg < sJoy then "радость"
  else "негативные"

/-- Embedding of map_features_to_emotions: the loop appends the chosen label
for each segment, reading emotions[-1] for the hysteresis bonus. -/
def map_features_to_emotions (features : List FeatureVec) : List String :=
  features.foldl (fun emotions f =>
    emotions ++ [chooseLabel
      (finalScores (classifierStats features) emotions.getLast? f).1
      (finalScores (classifierStats features) emotions.getLast? f).2.1
      (finalScores (classifierStats features) emotions.getLast? f).2.2]) []

/-- Modelled from the claim wording for C6: the first label in the iteration
order негативные, радость, нейтрально whose final score attains the maximum
of the three. -/
def argmaxSpec (sNeg sJoy sNeu : ℚ) : String :=
  if sNeg = max sNeg (max sJoy sNeu) then "негативные"
  else if sJoy = max sNeg (max sJoy sNeu) then "радость"
  else "нейтрально"

/-- Modelled from the claim wording for C6: the per-position recurrence in
which each emitted label feeds the hysteresis bonus of the next position. -/
def classifierSpecGo (st : ClassifierStats) :
    Option String → List FeatureVec → List String
  | _, [] => []
  | prev, f :: fs =>
    argmaxSpec (finalScores st prev f).1 (finalScores st prev f).2.1
        (finalScores st prev f).2.2 ::
      classifierSpecGo st (some (argmaxSpec (finalScores st prev f).1
        (finalScores st prev f).2.1 (finalScores st prev f).2.2)) fs

/-- Modelled from the claim wording for C6: the whole-list classifier
description, with corpus statistics over the full feature list. -/
def classifierSpec (features : List FeatureVec) : List String :=
  classifierSpecGo (classifierStats features) none features

end CCI

namespace CCI

/-! ## Theorems -/

theorem clamp_bounds (s : ℚ) : 0 ≤ max 0 (min 10 s) ∧ max 0 (min 10 s) ≤ 10 :=
  ⟨le_max_left 0 _, max_le (by norm_num) (min_le_left 10 s)⟩

theorem foldl_max_div (m : ℚ) (hm : 0 ≤ m) (l : List ℚ) : ∀ i : ℚ,
    (l.map (fun x => x / m)).foldl max (i / m) = (l.foldl max i) / m := by
  induction l with
  | nil => intro i; rfl
  | cons a t ih =>
    intro i
    simp only [List.map_cons, List.foldl_cons, max_div_div_right hm]
    exact ih (max i a)

theorem maxAbs_map_div (audio : List ℚ) (m : ℚ) (hm : 0 < m) :
    maxAbs (audio.map (fun x => x / m)) = maxAbs audio / m := by
  unfold maxAbs
  rw [List.map_map]
  have hcomp : ((fun x : ℚ => |x|) ∘ fun x : ℚ => x / m) =
      (fun x : ℚ => x / m) ∘ (fun x : ℚ => |x|) := by
    funext x
    simp [Function.comp_apply, abs_div, abs_of_pos hm]
  rw [hcomp, ← List.map_map]
  have h0 : (0 : ℚ) = 0 / m := (zero_div m).symm
  rw [h0, foldl_max_div m hm.le, ← h0]

/-- C10: normalize_audio is idempotent over exact rational arithmetic, with
the raising path propagated as an exception would be: composing the function
with itself in the exception monad equals a single application.  On the empty
signal both sides raise; an all-zero signal is returned unchanged and is a
fixed point; any successful output has maximum absolute sample exactly 1 and
is itself a fixed point. -/
theorem normalize_audio_idempotent (audio : List ℚ) :
    (normalize_audio audio).bind normalize_audio = normalize_audio audio := by
  by_cases hemp : audio.isEmpty = true
  · have h0 : normalize_audio audio = none := by
      unfold normalize_audio
      rw [if_pos hemp]
    rw [h0]
    rfl
  · by_cases h : 0 < maxAbs audio
    · have h1 : normalize_audio audio =
          some (audio.map (fun x => x / maxAbs audio)) := by
        unfold normalize_audio
        rw [if_neg hemp, if_pos h]
      have hne : (audio.map (fun x => x / maxAbs audio)).isEmpty = false := by
        cases audio with
        | nil => simp at hemp
        | cons x t => rfl
      have hmax : maxAbs (audio.map (fun x => x / maxAbs audio)) = 1 := by
        rw [maxAbs_map_div audio (maxAbs audio) h, div_self (ne_of_gt h)]
      rw [h1]
      have hbind : (some (audio.map (fun x => x / maxAbs audio))).bind
          normalize_audio =
          normalize_audio (audio.map (fun x => x / maxAbs audio)) := rfl
      rw [hbind]
      unfold normalize_audio
      rw [if_neg (by simp [hne]), hmax, if_pos one_pos]
      simp [div_one]
    · have h1 : normalize_audio audio = some audio := by
        unfold normalize_audio
        rw [if_neg hemp, if_neg h]
      rw [h1]
      have hbind : (some audio).bind normalize_audio = normalize_audio audio :=
        rfl
      rw [hbind, h1]

/-- C1 (amended): the final normalized cutoffs computed by bandpass_filter
always satisfy low < high; under a sample rate of at least 200 Hz and an upper
cutoff request of at least 0.0055 times the sample rate (1.1 percent of
Nyquist) they satisfy the full claimed invariant 0.001 <= low < high <= 0.249;
and whenever the cutoffs would make the filter-coefficient computation raise,
the call returns the unfiltered data instead of propagating the exception. -/
theorem bandpass_cutoffs_sound :
    (∀ lc hc sr : ℚ,
      (bandpassCutoffs lc hc sr).1 < (bandpassCutoffs lc hc sr).2) ∧
    (∀ lc hc sr : ℚ, 200 ≤ sr → 0.0055 * sr ≤ hc →
      0.001 ≤ (bandpassCutoffs lc hc sr).1 ∧
      (bandpassCutoffs lc hc sr).1 < (bandpassCutoffs lc hc sr).2 ∧
      (bandpassCutoffs lc hc sr).2 ≤ 0.249) ∧
    (∀ (filt : ℚ → ℚ → List ℚ → List ℚ) (data : List ℚ) (lc hc sr : ℚ),
      ¬(0 < (bandpassCutoffs lc hc sr).1 ∧
        (bandpassCutoffs lc hc sr).1 < (bandpassCutoffs lc hc sr).2 ∧
        (bandpassCutoffs lc hc sr).2 < 1) →
      bandpass_filter filt data lc hc sr = data) := by
  refine ⟨?_, ?_, ?_⟩
  · intro lc hc sr
    have hh : bpLow1 lc sr + 0.001 ≤ bpHigh1 lc hc sr := le_max_left _ _
    by_cases hrc : bpHigh1 lc hc sr - bpLow1 lc sr < 0.01
    · unfold bandpassCutoffs
      rw [if_pos hrc]
      dsimp only
      linarith
    · unfold bandpassCutoffs
      rw [if_neg hrc]
      dsimp only
      linarith
  · intro lc hc sr h200 hhc
    have hnyq : (0 : ℚ) < bpNyquist sr := by unfold bpNyquist; linarith
    have hnyq100 : (100 : ℚ) ≤ bpNyquist sr := by unfold bpNyquist; linarith
    have hlowcut_le : bpLowcut lc sr ≤ bpNyquist sr / 5 := by
      unfold bpLowcut
      apply max_le
      · linarith
      · calc min lc (bpNyquist sr * 0.25 * 0.8)
            ≤ bpNyquist sr * 0.25 * 0.8 := min_le_right _ _
          _ = bpNyquist sr / 5 := by ring
    have hlow0 : bpLowcut lc sr / bpNyquist sr ≤ 0.2 := by
      rw [div_le_iff₀ hnyq]
      linarith
    have hlow1_le : bpLow1 lc sr ≤ 0.2 := by
      unfold bpLow1
      exact max_le (by norm_num) (le_trans (min_le_left _ _) hlow0)
    have hlow1_ge : (0.001 : ℚ) ≤ bpLow1 lc sr := le_max_left _ _
    have hhighcut_ge : 0.011 * bpNyquist sr ≤ bpHighcut lc hc sr := by
      unfold bpHighcut
      apply le_trans _ (le_max_right _ _)
      apply le_min
      · unfold bpNyquist at *
        linarith
      · linarith
    have hhigh0 : (0.011 : ℚ) ≤ bpHighcut lc hc sr / bpNyquist sr := by
      rw [le_div_iff₀ hnyq]
      linarith
    have hhigh1_ge : (0.011 : ℚ) ≤ bpHigh1 lc hc sr := by
      unfold bpHigh1
      exact le_trans (le_min hhigh0 (by norm_num)) (le_max_right _ _)
    have hhigh1_le : bpHigh1 lc hc sr ≤ 0.249 := by
      unfold bpHigh1
      exact max_le (by linarith) (min_le_right _ _)
    have hh : bpLow1 lc sr + 0.001 ≤ bpHigh1 lc hc sr := le_max_left _ _
    by_cases hrc : bpHigh1 lc hc sr - bpLow1 lc sr < 0.01
    · unfold bandpassCutoffs
      rw [if_pos hrc]
      refine ⟨?_, ?_, ?_⟩ <;> dsimp only <;> linarith
    · unfold bandpassCutoffs
      rw [if_neg hrc]
      exact ⟨hlow1_ge, by linarith, hhigh1_le⟩
  · intro filt data lc hc sr hbad
    unfold bandpass_filter
    rw [if_neg hbad]

/-- C1 witness: the speech-band call bandpass_filter(audio, 85, 255, 44100)
used by analyze_and_enhance_audio satisfies the full cutoff invariant. -/
theorem bandpass_cutoffs_sound_witness :
    0.001 ≤ (bandpassCutoffs 85 255 44100).1 ∧
    (bandpassCutoffs 85 255 44100).1 < (bandpassCutoffs 85 255 44100).2 ∧
    (bandpassCutoffs 85 255 44100).2 ≤ 0.249 :=
  bandpass_cutoffs_sound.2.1 85 255 44100 (by norm_num) (by norm_num)

/-- C1 counterexample: for low_hz = 0 < high_hz = 1 at sample rate 48000, the
re-centering step pushes the low cutoff passed to the coefficient computation
to -83/24000, strictly below the claimed lower bound 0.001 (and below 0). -/
theorem bandpass_cutoffs_low_escape :
    (bandpassCutoffs 0 1 48000).1 = -83 / 24000 ∧
    (bandpassCutoffs 0 1 48000).1 < 0.001 := by
  constructor <;>
    norm_num [bandpassCutoffs, bpHigh1, bpLow1, bpHighcut, bpLowcut, bpNyquist,
      max_def, min_def]

theorem headD_mem_of_ne_nil (w : List String) (d : String) (hw : w ≠ []) :
    w.headD d ∈ w := by
  cases w with
  | nil => exact absurd rfl hw
  | cons a t => exact List.mem_cons_self a t

theorem firstOccs_fold_mem (l : List String) : ∀ (acc : List String),
    ∀ e ∈ l.foldl (fun acc e => if e ∈ acc then acc else acc ++ [e]) acc,
    e ∈ acc ∨ e ∈ l := by
  induction l with
  | nil => intro acc e he; exact Or.inl he
  | cons a t ih =>
    intro acc e he
    simp only [List.foldl_cons] at he
    rcases ih _ e he with h | h
    · by_cases ha : a ∈ acc
      · rw [if_pos ha] at h
        exact Or.inl h
      · rw [if_neg ha] at h
        rcases List.mem_append.mp h with h | h
        · exact Or.inl h
        · simp only [List.mem_singleton] at h
          exact Or.inr (h ▸ List.mem_cons_self a t)
    · exact Or.inr (List.mem_cons_of_mem a h)

theorem firstOccs_subset (l : List String) : ∀ e ∈ firstOccs l, e ∈ l := by
  intro e he
  rcases firstOccs_fold_mem l [] e he with h | h
  · exact absurd h (List.not_mem_nil e)
  · exact h

theorem best_fold_mem (w : List String) (cands : List String) : ∀ b : String,
    b ∈ w → (∀ c ∈ cands, c ∈ w) →
    cands.foldl (fun best e => if w.count best < w.count e then e else best) b ∈ w := by
  induction cands with
  | nil => intro b hb _; exact hb
  | cons c t ih =>
    intro b hb hc
    simp only [List.foldl_cons]
    apply ih
    · by_cases h : w.count b < w.count c
      · rw [if_pos h]
        exact hc c (List.mem_cons_self c t)
      · rw [if_neg h]
        exact hb
    · intro x hx
      exact hc x (List.mem_cons_of_mem c hx)

theorem mostCommon_mem (w : List String) (hw : w ≠ []) : mostCommon w ∈ w := by
  unfold mostCommon
  exact best_fold_mem w (firstOccs w) _ (headD_mem_of_ne_nil w "" hw)
    (firstOccs_subset w)

/-- C9: smooth_emotions always preserves the length of the sequence, and every
label of the output occurs somewhere in the input — the smoothing pass never
invents a new label. -/
theorem smooth_emotions_length_and_labels (es : List String) (ws : ℕ) :
    (smooth_emotions es ws).length = es.length ∧
    ∀ l ∈ smooth_emotions es ws, l ∈ es := by
  unfold smooth_emotions
  by_cases h : es.length ≤ ws
  · rw [if_pos h]
    exact ⟨rfl, fun l hl => hl⟩
  · rw [if_neg h]
    constructor
    · simp
    · intro l hl
      rcases List.mem_map.mp hl with ⟨i, hi, hval⟩
      have hilt : i < es.length := List.mem_range.mp hi
      dsimp only at hval
      set start := i - ws / 2 with hstart
      set stop := min es.length (i + ws / 2 + 1) with hstop
      have hwin : ((es.drop start).take (stop - start)) ≠ [] := by
        apply List.ne_nil_of_length_pos
        rw [List.length_take, List.length_drop]
        omega
      have hmem := mostCommon_mem _ hwin
      have hsub : ∀ x ∈ (es.drop start).take (stop - start), x ∈ es :=
        fun x hx => List.drop_subset start es (List.take_subset _ _ hx)
      exact hval ▸ hsub _ hmem

/-- C2 (amended): for every sequence strictly longer than the window, the
smoothing pass replaces each position by the most frequent label of the
centered window of size 3 clipped at the boundaries (ties to the first label
encountered in window order); a sequence of length at most the window size is
returned unchanged; in particular the middle three labels of
[neutral, negative, negative, negative, neutral] are unchanged. -/
theorem smooth_emotions_spec :
    (∀ es : List String, 3 < es.length →
      smooth_emotions es 3 = smoothSpecAll es 3) ∧
    (∀ es : List String, es.length ≤ 3 → smooth_emotions es 3 = es) ∧
    ((smooth_emotions
        ["neutral", "negative", "negative", "negative", "neutral"] 3).drop 1).take 3
      = ((["neutral", "negative", "negative", "negative", "neutral"] :
          List String).drop 1).take 3 := by
  refine ⟨?_, ?_, by decide⟩
  · intro es h
    unfold smooth_emotions
    rw [if_neg (not_le.mpr h)]
    rfl
  · intro es h
    unfold smooth_emotions
    rw [if_pos h]

/-- C2 witness: the concrete five-label sequence of the claim is strictly
longer than the window, so the windowed-majority description applies to it. -/
theorem smooth_emotions_spec_witness :
    smooth_emotions ["neutral", "negative", "negative", "negative", "neutral"] 3 =
    smoothSpecAll ["neutral", "negative", "negative", "negative", "neutral"] 3 :=
  smooth_emotions_spec.1 _ (by decide)

/-- C2 counterexample: on the length-3 sequence [negative, neutral, negative]
the code returns the input unchanged, while the claimed windowed-majority
description would replace the middle label by the window majority negative. -/
theorem smooth_emotions_short_counterexample :
    smooth_emotions ["negative", "neutral", "negative"] 3 ≠
    smoothSpecAll ["negative", "neutral", "negative"] 3 := by
  decide

theorem streak_fold_inv (T : List String) (m : ℕ) (hm : 1 ≤ m) :
    ∀ (l : List String) (c cur : ℕ) (acc : List ℕ),
    c = (acc.filter (fun r => m ≤ r)).length →
    (l.foldl (streakStep T m) (c, cur)).1 =
      (((l.foldl (runStep T) (acc, cur)).1).filter (fun r => m ≤ r)).length ∧
    (l.foldl (streakStep T m) (c, cur)).2 =
      (l.foldl (runStep T) (acc, cur)).2 := by
  intro l
  induction l with
  | nil => intro c cur acc hc; exact ⟨hc, rfl⟩
  | cons e t ih =>
    intro c cur acc hc
    simp only [List.foldl_cons]
    by_cases he : e ∈ T
    · rw [streakStep, runStep, if_pos he, if_pos he]
      exact ih c (cur + 1) acc hc
    · rw [streakStep, runStep, if_neg he, if_neg he]
      by_cases hcur : m ≤ cur
      · rw [if_pos hcur, if_pos (show 0 < cur by omega)]
        apply ih
        simp [List.filter_append, hc, hcur]
      · rw [if_neg hcur]
        by_cases h0 : 0 < cur
        · rw [if_pos h0]
          apply ih
          simp [List.filter_append, hc, hcur]
        · rw [if_neg h0]
          exact ih c 0 acc hc

/-- C7: for any positive min_length, count_emotion_sequences counts exactly
the maximal runs of consecutive target labels whose length reaches
min_length, a trailing run included; in particular the two concrete
evaluations of the claim hold. -/
theorem count_emotion_sequences_spec :
    (∀ (es T : List String) (m : ℕ), 1 ≤ m →
      count_emotion_sequences es T m = streakCountSpec es T m) ∧
    count_emotion_sequences ["negative", "negative", "neutral"] ["negative"] 2 = 1 ∧
    count_emotion_sequences ["negative", "neutral", "negative"] ["negative"] 2 = 0 := by
  refine ⟨?_, by decide, by decide⟩
  intro es T m hm
  obtain ⟨h1, h2⟩ := streak_fold_inv T m hm es 0 0 [] rfl
  unfold count_emotion_sequences streakCountSpec targetRuns
  rw [h1, h2]
  by_cases hend : m ≤ (es.foldl (runStep T) ([], 0)).2
  · rw [if_pos hend, if_pos (show 0 < (es.foldl (runStep T) ([], 0)).2 by omega)]
    simp [List.filter_append, hend]
  · rw [if_neg hend]
    by_cases h0 : 0 < (es.foldl (runStep T) ([], 0)).2
    · rw [if_pos h0]
      simp [List.filter_append, hend]
    · rw [if_neg h0]

/-- C7 witness: the first concrete sequence of the claim instantiates the
general run-counting description at min_length 2. -/
theorem count_emotion_sequences_spec_witness :
    count_emotion_sequences ["negative", "negative", "neutral"] ["negative"] 2 =
      streakCountSpec ["negative", "negative", "neutral"] ["negative"] 2 ∧
    streakCountSpec ["negative", "negative", "neutral"] ["negative"] 2 = 1 :=
  ⟨count_emotion_sequences_spec.1 _ _ 2 (by decide), by decide⟩

/-- C5: the quality score is clamped into the closed interval [0, 10] for
every pair of same-length nonempty label timelines. -/
theorem calculate_call_quality_bounded (op cust : List String)
    (h1 : op.length = cust.length) (h2 : 1 ≤ op.length) :
    0 ≤ calculate_call_quality op cust ∧ calculate_call_quality op cust ≤ 10 := by
  unfold calculate_call_quality
  exact clamp_bounds _

/-- C5 witness: the score of the one-segment all-neutral conversation lies in
[0, 10]. -/
theorem calculate_call_quality_bounded_witness :
    0 ≤ calculate_call_quality ["нейтрально"] ["нейтрально"] ∧
    calculate_call_quality ["нейтрально"] ["нейтрально"] ≤ 10 :=
  calculate_call_quality_bounded _ _ (by decide) (by decide)

theorem foldl_append_filter (t : ℕ → ℚ) (p : ℕ → Bool) : ∀ (L : List ℕ) (acc : List ℚ),
    L.foldl (fun acc i => if p i then acc ++ [t i] else acc) acc =
      acc ++ (L.filter p).map t := by
  intro L
  induction L with
  | nil => intro acc; simp
  | cons a l ih =>
    intro acc
    simp only [List.foldl_cons, List.filter_cons]
    cases hp : p a with
    | false => simp [hp, ih]
    | true => simp [hp, ih]

theorem range'_concat_one (s n : ℕ) :
    List.range' s (n + 1) = List.range' s n ++ [s + n] := by
  have h : List.range' s (n + 1) 1 = List.range' s n 1 ++ [s + 1 * n] :=
    List.range'_concat s n
  simpa using h

theorem filter_range_split (p : ℕ → Bool) (a : ℕ) : ∀ b : ℕ,
    (List.range (a + b)).filter (fun i => decide (a ≤ i) && p i) =
      (List.range' a b).filter p := by
  intro b
  induction b with
  | zero =>
    rw [Nat.add_zero, List.range'_zero]
    apply List.filter_eq_nil_iff.mpr
    intro x hx
    have hxa := List.mem_range.mp hx
    simp only [Bool.and_eq_true, decide_eq_true_eq, not_and]
    intro hax
    omega
  | succ b ih =>
    have hn : a + (b + 1) = (a + b) + 1 := rfl
    rw [hn, List.range_succ, List.filter_append, ih, range'_concat_one,
      List.filter_append]
    have hle : decide (a ≤ a + b) = true := by
      simp [Nat.le_add_right]
    simp [List.filter_cons, hle]

/-- C8: the de-escalation list of extract_key_moments consists of exactly the
timestamps of the indices i with 2 ≤ i at which the fixed 2-segment-lag
pattern (customer negative at i-2, operator calm at i-1, customer calm at i)
matches, in index order; on the concrete timelines of the claim the list
contains timestamp 5 exactly once. -/
theorem extract_key_moments_deescalation :
    (∀ (time : List ℚ) (op cust : List String),
      (extract_key_moments time op cust).2.2 = deescalationSpec time op cust) ∧
    ((extract_key_moments [0, 1, 2, 3, 4, 5]
      ["нейтрально", "нейтрально", "нейтрально", "нейтрально", "радость",
        "нейтрально"]
      ["нейтрально", "нейтрально", "нейтрально", "негативные", "нейтрально",
        "нейтрально"]).2.2).count 5 = 1 := by
  refine ⟨?_, by decide⟩
  intro time op cust
  unfold extract_key_moments deescalationSpec
  dsimp only
  rw [foldl_append_filter, List.nil_append]
  by_cases hn : 2 ≤ op.length
  · have h : op.length = 2 + (op.length - 2) := by omega
    conv_rhs => rw [h]
    rw [filter_range_split]
  · have h2 : op.length - 2 = 0 := by omega
    rw [h2, List.range'_zero]
    have hnil : (List.range op.length).filter
        (fun i => decide (2 ≤ i) && goodResponseB op cust i) = [] := by
      apply List.filter_eq_nil_iff.mpr
      intro x hx
      have hxr := List.mem_range.mp hx
      simp only [Bool.and_eq_true, decide_eq_true_eq, not_and]
      intro hax
      omega
    rw [hnil]
    rfl

theorem writeSlice_sum (m1 m2 v1 v2 : ℕ → ℚ) (s e p : ℕ) :
    writeSlice m1 s e v1 p + writeSlice m2 s e v2 p =
      if s ≤ p ∧ p < e then v1 p + v2 p else m1 p + m2 p := by
  unfold writeSlice
  by_cases h : s ≤ p ∧ p < e
  · rw [if_pos h, if_pos h, if_pos h]
  · rw [if_neg h, if_neg h, if_neg h]

theorem frameMaskWrite_sum (en : List ℚ) (thr : ℚ) (hop fl n : ℕ) :
    ∀ (L : List ℕ) (m1 m2 : ℕ → ℚ) (p : ℕ),
    frameMaskWrite en thr hop fl n 0.8 0.2 m1 L p +
      frameMaskWrite en thr hop fl n 0.2 0.8 m2 L p =
    if ∃ i ∈ L, i * hop ≤ p ∧ p < min (i * hop + fl) n then 1
    else m1 p + m2 p := by
  intro L
  induction L with
  | nil =>
    intro m1 m2 p
    simp [frameMaskWrite]
  | cons i t ih =>
    intro m1 m2 p
    have e1 : frameMaskWrite en thr hop fl n 0.8 0.2 m1 (i :: t) =
        frameMaskWrite en thr hop fl n 0.8 0.2
          (writeSlice m1 (i * hop) (min (i * hop + fl) n)
            (fun _ => if thr < en.getD i 0 then 0.8 else 0.2)) t := rfl
    have e2 : frameMaskWrite en thr hop fl n 0.2 0.8 m2 (i :: t) =
        frameMaskWrite en thr hop fl n 0.2 0.8
          (writeSlice m2 (i * hop) (min (i * hop + fl) n)
            (fun _ => if thr < en.getD i 0 then 0.2 else 0.8)) t := rfl
    rw [e1, e2, ih, writeSlice_sum]
    by_cases ht : ∃ j ∈ t, j * hop ≤ p ∧ p < min (j * hop + fl) n
    · have hcons : ∃ j ∈ i :: t, j * hop ≤ p ∧ p < min (j * hop + fl) n := by
        obtain ⟨j, hjt, hjp⟩ := ht
        exact ⟨j, List.mem_cons_of_mem i hjt, hjp⟩
      rw [if_pos ht, if_pos hcons]
    · rw [if_neg ht]
      by_cases hin : i * hop ≤ p ∧ p < min (i * hop + fl) n
      · have hcons : ∃ j ∈ i :: t, j * hop ≤ p ∧ p < min (j * hop + fl) n :=
          ⟨i, List.mem_cons_self i t, hin⟩
        rw [if_pos hin, if_pos hcons]
        show (if thr < en.getD i 0 then (0.8 : ℚ) else 0.2) +
            (if thr < en.getD i 0 then (0.2 : ℚ) else 0.8) = 1
        by_cases hthr : thr < en.getD i 0
        · rw [if_pos hthr, if_pos hthr]
          norm_num
        · rw [if_neg hthr, if_neg hthr]
          norm_num
      · have hnone : ¬∃ j ∈ i :: t, j * hop ≤ p ∧ p < min (j * hop + fl) n := by
          rintro ⟨j, hjmem, hjp⟩
          rcases List.mem_cons.mp hjmem with rfl | hjt
          · exact hin hjp
          · exact ht ⟨j, hjt, hjp⟩
        rw [if_neg hin, if_neg hnone]

theorem frames_cover (hop fl nE n p : ℕ) (hhop : 1 ≤ hop) (hfl : hop ≤ fl)
    (hspan : (nE - 1) * hop + fl ≤ n) (hnE : 1 ≤ nE)
    (hp : p < (nE - 1) * hop + fl) :
    ∃ i ∈ List.range nE, i * hop ≤ p ∧ p < min (i * hop + fl) n := by
  have hn : p < n := lt_of_lt_of_le hp hspan
  obtain ⟨q, r, hr, hqr⟩ : ∃ q r, r < hop ∧ p = hop * q + r :=
    ⟨p / hop, p % hop, Nat.mod_lt p (by omega), (Nat.div_add_mod p hop).symm⟩
  rcases le_or_lt q (nE - 1) with hle | hlt
  · refine ⟨q, List.mem_range.mpr (by omega), ?_, ?_⟩
    · rw [hqr, Nat.mul_comm]
      exact Nat.le_add_right _ _
    · refine lt_min ?_ hn
      rw [Nat.mul_comm q hop, hqr]
      exact Nat.add_lt_add_left (lt_of_lt_of_le hr hfl) _
  · refine ⟨nE - 1, List.mem_range.mpr (by omega), ?_, lt_min hp hn⟩
    have h1 : (nE - 1) * hop ≤ q * hop := Nat.mul_le_mul_right hop (by omega)
    have h2 : q * hop ≤ p := by
      rw [hqr, Nat.mul_comm q hop]
      exact Nat.le_add_right _ _
    exact le_trans h1 h2

theorem linspaceVal_add (a b c d : ℚ) (num k : ℕ) :
    linspaceVal a b num k + linspaceVal c d num k =
      linspaceVal (a + c) (b + d) num k := by
  unfold linspaceVal
  by_cases h : num ≤ 1
  · rw [if_pos h, if_pos h, if_pos h]
  · rw [if_neg h, if_neg h, if_neg h]
    ring

theorem linspaceVal_one_one (num k : ℕ) : linspaceVal 1 1 num k = 1 := by
  unfold linspaceVal
  by_cases h : num ≤ 1
  · rw [if_pos h]
  · rw [if_neg h]
    ring

theorem crossfadeWrite_sum (hop trans n E : ℕ) :
    ∀ L : List ℕ, (∀ i ∈ L, i * hop < E) →
    ∀ m1 m2 : ℕ → ℚ, (∀ p, p < E → m1 p + m2 p = 1) →
    ∀ p, p < E →
      crossfadeWrite hop trans n m1 L p + crossfadeWrite hop trans n m2 L p = 1 := by
  intro L
  induction L with
  | nil =>
    intro _ m1 m2 hinv p hp
    exact hinv p hp
  | cons i t ih =>
    intro hL m1 m2 hinv p hp
    have e1 : crossfadeWrite hop trans n m1 (i :: t) =
        crossfadeWrite hop trans n
          (writeSlice m1 (i * hop) (min (i * hop + trans) n)
            (fun q => linspaceVal (m1 (i * hop - 1)) (m1 (i * hop))
              (min (i * hop + trans) n - i * hop) (q - i * hop))) t := rfl
    have e2 : crossfadeWrite hop trans n m2 (i :: t) =
        crossfadeWrite hop trans n
          (writeSlice m2 (i * hop) (min (i * hop + trans) n)
            (fun q => linspaceVal (m2 (i * hop - 1)) (m2 (i * hop))
              (min (i * hop + trans) n - i * hop) (q - i * hop))) t := rfl
    rw [e1, e2]
    refine ih (fun j hj => hL j (List.mem_cons_of_mem i hj)) _ _ ?_ p hp
    intro q hq
    rw [writeSlice_sum]
    by_cases hin : i * hop ≤ q ∧ q < min (i * hop + trans) n
    · rw [if_pos hin, linspaceVal_add]
      have hiE : i * hop < E := hL i (List.mem_cons_self i t)
      have h1 : m1 (i * hop - 1) + m2 (i * hop - 1) = 1 :=
        hinv _ (lt_of_le_of_lt (Nat.sub_le _ _) hiE)
      have h2 : m1 (i * hop) + m2 (i * hop) = 1 := hinv _ hiE
      rw [h1, h2, linspaceVal_one_one]
    · rw [if_neg hin]
      exact hinv q hq

/-- C3 (amended): inside the span covered by the analysis frames — sample
positions p < (numFrames - 1) * hop + frame_length — the operator and
customer masks sum to exactly 1 after the frame-wise 0.8/0.2 assignment and
the cross-fade, before the final per-branch normalization.  Samples in the
tail beyond the last frame (present whenever the signal length minus the
frame length is not a multiple of the hop) are covered by no frame and carry
weight 0 in both masks. -/
theorem mono_masks_partition (audio : List ℚ) (sr : ℕ)
    (hsr : 100 ≤ sr) (hlen : frameLen sr ≤ audio.length) :
    ∀ p, p < (numFrames audio.length (frameLen sr) (hopLen sr) - 1) * hopLen sr
        + frameLen sr →
      operatorMask audio sr p + customerMask audio sr p = 1 := by
  have hhop : 1 ≤ hopLen sr := by unfold hopLen; omega
  have hfl : hopLen sr ≤ frameLen sr := by unfold hopLen frameLen; omega
  have hfl1 : 1 ≤ frameLen sr := by unfold frameLen; omega
  have hnElen : (minmaxNorm (frameEnergies audio sr)).length =
      numFrames audio.length (frameLen sr) (hopLen sr) := by
    unfold minmaxNorm frameEnergies
    simp
  have hspan : ((minmaxNorm (frameEnergies audio sr)).length - 1) * hopLen sr
      + frameLen sr ≤ audio.length := by
    rw [hnElen]
    unfold numFrames
    have he : 1 + (audio.length - frameLen sr) / hopLen sr - 1 =
        (audio.length - frameLen sr) / hopLen sr := by
      simp
    rw [he]
    have hd := Nat.div_mul_le_self (audio.length - frameLen sr) (hopLen sr)
    calc (audio.length - frameLen sr) / hopLen sr * hopLen sr + frameLen sr
        ≤ (audio.length - frameLen sr) + frameLen sr := Nat.add_le_add_right hd _
      _ = audio.length := Nat.sub_add_cancel hlen
  have hnE1 : 1 ≤ (minmaxNorm (frameEnergies audio sr)).length := by
    rw [hnElen]
    unfold numFrames
    exact Nat.le_add_right 1 _
  intro p hp
  rw [← hnElen] at hp
  unfold operatorMask customerMask
  refine crossfadeWrite_sum (hopLen sr) (transLen sr) audio.length
    (((minmaxNorm (frameEnergies audio sr)).length - 1) * hopLen sr + frameLen sr)
    (List.range' 1 ((minmaxNorm (frameEnergies audio sr)).length - 1))
    ?_ _ _ ?_ p hp
  · intro i hi
    have hmem := List.mem_range'_1.mp hi
    have h1 : i * hopLen sr ≤
        ((minmaxNorm (frameEnergies audio sr)).length - 1) * hopLen sr :=
      Nat.mul_le_mul_right _ (by omega)
    exact lt_of_le_of_lt h1 (Nat.lt_add_of_pos_right (by omega))
  · intro q hq
    rw [frameMaskWrite_sum,
      if_pos (frames_cover (hopLen sr) (frameLen sr)
        (minmaxNorm (frameEnergies audio sr)).length audio.length q
        hhop hfl hspan hnE1 hq)]

/-- C3 witness: on a 30-ms signal of ones at 1000 Hz the two masks sum to 1
at sample position 0, which lies inside the framed span. -/
theorem mono_masks_partition_witness :
    operatorMask (List.replicate 30 (1 : ℚ)) 1000 0 +
      customerMask (List.replicate 30 (1 : ℚ)) 1000 0 = 1 :=
  mono_masks_partition _ 1000 (by norm_num)
    (by norm_num [frameLen, List.length_replicate]) 0
    (by norm_num [numFrames, frameLen, hopLen, List.length_replicate])

/-- C3 counterexample: at sample rate 200 the frame length is 5 and the hop
is 2, so a 6-sample signal has one frame covering samples 0..4 only; at the
in-signal position 5 both masks are still 0 and their sum is 0, not 1, so
the claimed invariant fails at a sample position of the input signal. -/
theorem mono_masks_partition_tail_gap :
    operatorMask (List.replicate 6 (1 : ℚ)) 200 5 +
      customerMask (List.replicate 6 (1 : ℚ)) 200 5 ≠ 1 := by
  norm_num [operatorMask, customerMask, crossfadeWrite, frameMaskWrite,
    writeSlice, numFrames, frameLen, hopLen, transLen, minmaxNorm,
    frameEnergies, List.range_succ]

/-- C4: when the mono-diarization steps raise after the local variable audio
has been rebound to the normalized signal, the except branch returns the
normalized signal, not the unmodified input: on input [2] at 1000 Hz the
framing step raises (1 sample < frame length 25) after normalization has
rescaled the signal to [1], and both returned channels are [1], while the
claim (and the comment in the source) promise the unmodified input [2]. -/
theorem separate_speakers_fallback_rebinds :
    separate_speakers_from_mono [2] 1000 = ([1], [1], 1000) ∧
    separate_speakers_from_mono [2] 1000 ≠ ([2], [2], 1000) := by
  have hmax : maxAbs [2] = 2 := by
    norm_num [maxAbs, max_def]
  have hnorm : normalize_audio [2] = some [1] := by
    unfold normalize_audio
    rw [hmax]
    norm_num
  have h1 : separate_speakers_from_mono [2] 1000 = ([1], [1], 1000) := by
    unfold separate_speakers_from_mono
    rw [hnorm]
    norm_num [frameLen, hopLen]
  refine ⟨h1, ?_⟩
  rw [h1]
  norm_num [Prod.ext_iff]

theorem chooseLabel_eq_argmax (a b c : ℚ) : chooseLabel a b c = argmaxSpec a b c := by
  unfold chooseLabel argmaxSpec
  by_cases h2 : a < b
  · by_cases h3 : b < c
    · have hac : a < c := lt_trans h2 h3
      rw [if_pos h2, if_pos h3, max_eq_right h3.le, max_eq_right hac.le,
        if_neg (ne_of_lt hac), if_neg (ne_of_lt h3)]
    · have hcb : c ≤ b := le_of_not_lt h3
      rw [if_pos h2, if_neg h3, if_pos h2, max_eq_left hcb,
        max_eq_right h2.le, if_neg (ne_of_lt h2), if_pos rfl]
  · have hba : b ≤ a := le_of_not_lt h2
    by_cases h3 : a < c
    · have hbc : b < c := lt_of_le_of_lt hba h3
      rw [if_neg h2, if_pos h3, max_eq_right hbc.le, max_eq_right h3.le,
        if_neg (ne_of_lt h3), if_neg (ne_of_lt hbc)]
    · have hca : c ≤ a := le_of_not_lt h3
      rw [if_neg h2, if_neg h3, if_neg h2, max_eq_left (max_le hba hca),
        if_pos rfl]

theorem classifier_fold (st : ClassifierStats) :
    ∀ (fs : List FeatureVec) (acc : List String),
    fs.foldl (fun emotions f =>
      emotions ++ [chooseLabel
        (finalScores st emotions.getLast? f).1
        (finalScores st emotions.getLast? f).2.1
        (finalScores st emotions.getLast? f).2.2]) acc =
      acc ++ classifierSpecGo st acc.getLast? fs := by
  intro fs
  induction fs with
  | nil =>
    intro acc
    simp [classifierSpecGo]
  | cons f t ih =>
    intro acc
    rw [List.foldl_cons, ih, List.getLast?_concat, chooseLabel_eq_argmax]
    simp only [classifierSpecGo]
    simp [List.append_assoc]

/-- C6: the label list emitted by map_features_to_emotions is exactly the
recurrence described by the claim: each position receives the label of
maximum final score, where the previously emitted label gets a 0.3 hysteresis
bonus (none at the first position), the negative score is forced to 0 when
its raw value before the bonus is below 5, and ties resolve to the first
maximum in the iteration order негативные, радость, нейтрально. -/
theorem map_features_to_emotions_spec (features : List FeatureVec) :
    map_features_to_emotions features = classifierSpec features := by
  unfold map_features_to_emotions classifierSpec
  rw [classifier_fold (classifierStats features) features []]
  rfl

end CCI
